import Mathlib

/-!
Shallow embedding of `vendor/github.com/hashicorp/go-version/version.go`.

Strings are modelled as `List Char` (the inputs accepted by the version
grammar are ASCII, where Go's byte-wise string order coincides with
code-point order).  Go's `int` segment values are modelled as `Nat`
(segments are parsed from decimal digit runs, hence non-negative), with the
`strconv.ParseInt (..., 10, 32)` overflow check made explicit.

The anchored regular expression

  `^v?([0-9]+(\.[0-9]+)*?)(-?([0-9A-Za-z\-]+(\.[0-9A-Za-z\-]+)*))?(\+([0-9A-Za-z\-]+(\.[0-9A-Za-z\-]+)*))??$`

is embedded as a deterministic parser that reproduces the leftmost-first
submatch semantics of Go's `regexp` package on this pattern:
the digit group `[0-9]+(\.[0-9]+)*?` first takes every maximal
dot-separated digit run; if the remainder cannot be completed by the
(pre-release)(metadata) tail, backtracking shortens the last shortenable
digit run by exactly one digit and hands the freed characters to the
pre-release group, which then munches greedily.
-/

/-- `[0-9]` character class of the version regular expression. -/
def isDigitCh (c : Char) : Bool := 48 ≤ c.toNat && c.toNat ≤ 57

/-- `[0-9A-Za-z\-]` character class of the version regular expression. -/
def isAlnumDash (c : Char) : Bool :=
  isDigitCh c || (65 ≤ c.toNat && c.toNat ≤ 90) || (97 ≤ c.toNat && c.toNat ≤ 122)
    || c = '-'

/-- The `Version` struct of `version.go` (field order as in the source). -/
structure Version where
  metadata : List Char
  pre : List Char
  segments : List Nat
  si : Nat
deriving DecidableEq, Repr

/-- Numeric value of a digit run, as read by `strconv.ParseInt` (base 10). -/
def digitsToNat (s : List Char) : Nat :=
  s.foldl (fun a c => a * 10 + (c.toNat - 48)) 0

/-- Largest value accepted by `strconv.ParseInt(str, 10, 32)` on a digit run. -/
def maxInt32 : Nat := 2 ^ 31 - 1

/-- The zero padding loop of `NewVersion`: pad with trailing zeros to length 3. -/
def padTo3 (l : List Nat) : List Nat := l ++ List.replicate (3 - l.length) 0

/-- Greedy `(\.[0-9A-Za-z\-]+)*`: consume as many dot-token groups as possible,
returning the consumed characters and the remainder. -/
def munchDotTokens (s : List Char) : List Char × List Char :=
  match s with
  | '.' :: rest =>
    let tok := rest.takeWhile isAlnumDash
    if tok = [] then ([], s)
    else
      let (more, fin) := munchDotTokens (rest.dropWhile isAlnumDash)
      ('.' :: tok ++ more, fin)
  | _ => ([], s)
termination_by s.length
decreasing_by
  simp only [List.length_cons]
  have hsuf : List.dropWhile isAlnumDash rest <:+ rest := List.dropWhile_suffix isAlnumDash
  have := hsuf.length_le
  omega

/-- The pre-release group `(-?([0-9A-Za-z\-]+(\.[0-9A-Za-z\-]+)*))?`:
returns the inner capture (Go's `matches[4]`, `[]` when the group is absent)
and the remainder.  The optional dash is greedy: it is consumed when a token
character follows; otherwise the dash itself can start the first token. -/
def matchPre (s : List Char) : List Char × List Char :=
  match s with
  | '-' :: rest =>
    let tok := rest.takeWhile isAlnumDash
    if tok = [] then
      let (more, fin) := munchDotTokens rest
      ('-' :: more, fin)
    else
      let (more, fin) := munchDotTokens (rest.dropWhile isAlnumDash)
      (tok ++ more, fin)
  | c :: _ =>
    if isAlnumDash c then
      let tok := s.takeWhile isAlnumDash
      let (more, fin) := munchDotTokens (s.dropWhile isAlnumDash)
      (tok ++ more, fin)
    else ([], s)
  | [] => ([], s)

/-- The metadata group `(\+([0-9A-Za-z\-]+(\.[0-9A-Za-z\-]+)*))??` followed by
the end anchor: returns the inner capture (Go's `matches[7]`) when the whole
remainder matches, `none` otherwise. -/
def matchMeta (s : List Char) : Option (List Char) :=
  match s with
  | [] => some []
  | '+' :: rest =>
    let tok := rest.takeWhile isAlnumDash
    if tok = [] then none
    else
      let (more, fin) := munchDotTokens (rest.dropWhile isAlnumDash)
      if fin = [] then some (tok ++ more) else none
  | _ => none

/-- Pre-release group then metadata group then end anchor. -/
def matchTail (s : List Char) : Option (List Char × List Char) :=
  let (pre, rest) := matchPre s
  match matchMeta rest with
  | some meta => some (pre, meta)
  | none => none

/-- Greedy spine of dot-separated maximal digit runs `(\.[0-9]+)*`. -/
def dotDigitGroups (s : List Char) : List (List Char) × List Char :=
  match s with
  | '.' :: rest =>
    let d := rest.takeWhile isDigitCh
    if d = [] then ([], s)
    else
      let (gs, fin) := dotDigitGroups (rest.dropWhile isDigitCh)
      (d :: gs, fin)
  | _ => ([], s)
termination_by s.length
decreasing_by
  simp only [List.length_cons]
  have hsuf : List.dropWhile isDigitCh rest <:+ rest := List.dropWhile_suffix isDigitCh
  have := hsuf.length_le
  omega

/-- Backtracking step of the digit group: cut one digit off the last digit run
that still has at least two digits.  Returns the kept runs, the cut digit and
the dropped later runs. -/
def shortenRuns : List (List Char) → Option (List (List Char) × Char × List (List Char))
  | [] => none
  | r :: rest =>
    match shortenRuns rest with
    | some (a, c, b) => some (r :: a, c, b)
    | none =>
      match r.reverse with
      | c :: d :: t => some ([(d :: t).reverse], c, rest)
      | _ => none

/-- Renders dropped digit runs back to text, each with its leading dot. -/
def renderDropped (runs : List (List Char)) : List Char :=
  runs.foldr (fun r acc => '.' :: (r ++ acc)) []

/-- The segment construction of `NewVersion`: `strconv.ParseInt(str, 10, 32)`
on every captured digit run (failing on 32-bit overflow), zero padding to
length 3, and the recorded original segment count `si`. -/
def mkVersion (runs : List (List Char)) (pre meta : List Char) : Option Version :=
  if runs.all (fun r => digitsToNat r ≤ maxInt32) then
    some ⟨meta, pre, padTo3 (runs.map digitsToNat), runs.length⟩
  else none

/-- `NewVersion` of `version.go`: anchored match of the version regular
expression (with Go's leftmost-first submatch semantics) followed by integer
parsing of the captured digit runs. -/
def NewVersion (s : List Char) : Option Version :=
  let s1 := if s.head? = some 'v' then s.tail else s
  let d0 := s1.takeWhile isDigitCh
  if d0 = [] then none
  else
    let (gs, restF) := dotDigitGroups (s1.dropWhile isDigitCh)
    match matchTail restF with
    | some (pre, meta) => mkVersion (d0 :: gs) pre meta
    | none =>
      match shortenRuns (d0 :: gs) with
      | none => none
      | some (runs2, c, dropped) =>
        match matchTail (c :: (renderDropped dropped ++ restF)) with
        | some (pre, meta) => mkVersion runs2 pre meta
        | none => none

/-- Decimal digit character, as produced by `strconv.Itoa`. -/
def digitChar (m : Nat) : Char :=
  if m = 0 then '0' else if m = 1 then '1' else if m = 2 then '2'
  else if m = 3 then '3' else if m = 4 then '4' else if m = 5 then '5'
  else if m = 6 then '6' else if m = 7 then '7' else if m = 8 then '8' else '9'

/-- `strconv.Itoa` on a non-negative value: canonical decimal rendering. -/
def natToChars (n : Nat) : List Char :=
  if n < 10 then [digitChar n]
  else natToChars (n / 10) ++ [digitChar (n % 10)]
termination_by n
decreasing_by
  exact Nat.div_lt_self (by omega) (by omega)

/-- `strings.Join(parts, ".")`. -/
def joinDots : List (List Char) → List Char
  | [] => []
  | [x] => x
  | x :: xs => x ++ '.' :: joinDots xs

/-- The `String()` method of `version.go`: dot-joined decimal segments, then
`-pre` when the pre-release is non-empty, then `+metadata` when the metadata
is non-empty. -/
def Version.String (v : Version) : List Char :=
  joinDots (v.segments.map natToChars)
    ++ (if v.pre = [] then [] else '-' :: v.pre)
    ++ (if v.metadata = [] then [] else '+' :: v.metadata)

/-- The `Segments()` accessor. -/
def Version.Segments (v : Version) : List Nat := v.segments

/-- The `Prerelease()` accessor. -/
def Version.Prerelease (v : Version) : List Char := v.pre

/-- The `Metadata()` accessor. -/
def Version.Metadata (v : Version) : List Char := v.metadata

/-- Success of `strconv.ParseInt(s, 10, 64)`: optional sign, a non-empty run
of decimal digits, and the value within the signed 64-bit range. -/
def goParseInt64Ok (s : List Char) : Bool :=
  match s with
  | [] => false
  | '+' :: rest => !rest.isEmpty && rest.all isDigitCh && digitsToNat rest ≤ 2 ^ 63 - 1
  | '-' :: rest => !rest.isEmpty && rest.all isDigitCh && digitsToNat rest ≤ 2 ^ 63
  | _ => s.all isDigitCh && digitsToNat s ≤ 2 ^ 63 - 1

/-- Go's byte-wise string order `<` (on code points; equal to the byte order
of the UTF-8 encoding). -/
def strLt : List Char → List Char → Bool
  | [], [] => false
  | [], _ :: _ => true
  | _ :: _, [] => false
  | a :: as, b :: bs =>
    if a.toNat < b.toNat then true
    else if b.toNat < a.toNat then false
    else strLt as bs

/-- Go's string order `>`. -/
def strGt (a b : List Char) : Bool := strLt b a

/-- `comparePart` of `version.go`. -/
def comparePart (preSelf preOther : List Char) : Int :=
  if preSelf = preOther then 0
  else if preSelf = [] then
    if goParseInt64Ok preOther then -1 else 1
  else if preOther = [] then
    if goParseInt64Ok preSelf then 1 else -1
  else if strGt preSelf preOther then 1 else -1

/-- `strings.Split(s, ".")`. -/
def splitOnDot : List Char → List (List Char)
  | [] => [[]]
  | c :: rest =>
    match splitOnDot rest with
    | [] => [[c]]
    | g :: gs => if c = '.' then [] :: g :: gs else (c :: g) :: gs

/-- The positional loop of `comparePrereleases`: walk to the longer length,
a missing part is the empty string, the first non-zero `comparePart` decides. -/
def prLoop : List (List Char) → List (List Char) → Int
  | [], [] => 0
  | [], y :: b => if comparePart [] y = 0 then prLoop [] b else comparePart [] y
  | x :: a, [] => if comparePart x [] = 0 then prLoop a [] else comparePart x []
  | x :: a, y :: b => if comparePart x y = 0 then prLoop a b else comparePart x y

/-- `comparePrereleases` of `version.go`. -/
def comparePrereleases (v other : List Char) : Int :=
  if v = other then 0
  else prLoop (splitOnDot v) (splitOnDot other)

/-- `allZero` of `version.go`. -/
def allZero (segs : List Nat) : Bool := segs.all (· == 0)

/-- The jagged segment loop of `Compare` (lines 112-152 of `version.go`):
when one side is exhausted, the other side wins unless its remaining entries
are all zero, in which case the loop breaks and `Compare` returns 0. -/
def segLoop : List Nat → List Nat → Int
  | [], [] => 0
  | [], y :: b => if allZero (y :: b) then 0 else -1
  | x :: a, [] => if allZero (x :: a) then 0 else 1
  | x :: a, y :: b => if x = y then segLoop a b else if x < y then -1 else 1

/-- `Compare` of `version.go`. -/
def Version.Compare (v other : Version) : Int :=
  if v.String = other.String then 0
  else
    let segmentsSelf := v.Segments
    let segmentsOther := other.Segments
    if segmentsSelf = segmentsOther then
      let preSelf := v.Prerelease
      let preOther := other.Prerelease
      if preSelf = [] && preOther = [] then 0
      else if preSelf = [] then 1
      else if preOther = [] then -1
      else comparePrereleases preSelf preOther
    else segLoop segmentsSelf segmentsOther

/-- `Equal` of `version.go`. -/
def Version.Equal (v o : Version) : Bool := v.Compare o == 0

/-- `GreaterThan` of `version.go`. -/
def Version.GreaterThan (v o : Version) : Bool := v.Compare o > 0

/-- `LessThan` of `version.go`. -/
def Version.LessThan (v o : Version) : Bool := v.Compare o < 0

/-- Convenience: parse a Lean string literal. -/
def parseS (s : String) : Option Version := NewVersion s.data

/-- Convenience: compare two parsed inputs. -/
def cmpS (s t : String) : Option Int :=
  match parseS s, parseS t with
  | some a, some b => some (a.Compare b)
  | _, _ => none

/-- Convenience: `Equal` on two parsed inputs. -/
def eqS (s t : String) : Option Bool :=
  match parseS s, parseS t with
  | some a, some b => some (a.Equal b)
  | _, _ => none

/-- Convenience: `GreaterThan` on two parsed inputs. -/
def gtS (s t : String) : Option Bool :=
  match parseS s, parseS t with
  | some a, some b => some (a.GreaterThan b)
  | _, _ => none

/-- Convenience: `LessThan` on two parsed inputs. -/
def ltS (s t : String) : Option Bool :=
  match parseS s, parseS t with
  | some a, some b => some (a.LessThan b)
  | _, _ => none

/-- A string of shape `[0-9A-Za-z\-]+(\.[0-9A-Za-z\-]+)*`: one or more
dot-separated non-empty runs of token characters. -/
def tokenSeqB (s : List Char) : Bool :=
  if s.takeWhile isAlnumDash = [] then false
  else
    match hd : s.dropWhile isAlnumDash with
    | [] => true
    | '.' :: r => tokenSeqB r
    | _ => false
termination_by s.length
decreasing_by
  have hsuf : List.dropWhile isAlnumDash s <:+ s := List.dropWhile_suffix isAlnumDash
  have h1 := hsuf.length_le
  rw [hd] at h1
  simp only [List.length_cons] at h1
  omega

/-! ### Basic facts about the string order and the part comparison -/

theorem char_toNat_inj {a b : Char} (h : a.toNat = b.toNat) : a = b := by
  have ha := Char.ofNat_toNat a
  rw [h, Char.ofNat_toNat] at ha
  exact ha.symm

theorem strLt_asymm : ∀ (a b : List Char), strLt a b = true → strLt b a = false := by
  intro a
  induction a with
  | nil => intro b h; cases b <;> simp [strLt] at h ⊢
  | cons x as ih =>
    intro b h
    cases b with
    | nil => simp [strLt] at h
    | cons y bs =>
      simp only [strLt] at h ⊢
      by_cases h1 : x.toNat < y.toNat
      · have h2 : ¬ y.toNat < x.toNat := by omega
        simp [h1, h2]
      · by_cases h2 : y.toNat < x.toNat
        · simp [h1, h2] at h
        · simp only [if_neg h1, if_neg h2] at h ⊢
          exact ih bs h

theorem strLt_connex : ∀ (a b : List Char), a ≠ b → strLt a b = true ∨ strLt b a = true := by
  intro a
  induction a with
  | nil =>
    intro b hne
    cases b with
    | nil => exact absurd rfl hne
    | cons y bs => left; simp [strLt]
  | cons x as ih =>
    intro b hne
    cases b with
    | nil => right; simp [strLt]
    | cons y bs =>
      by_cases h1 : x.toNat < y.toNat
      · left; simp [strLt, h1]
      · by_cases h2 : y.toNat < x.toNat
        · right; simp [strLt, h2]
        · have hxy : x = y := char_toNat_inj (by omega)
          subst hxy
          have hne2 : as ≠ bs := by
            intro h; exact hne (by rw [h])
          rcases ih bs hne2 with h | h
          · left; simp [strLt, h1, h2, h]
          · right; simp [strLt, h1, h2, h]

theorem comparePart_antisym (a b : List Char) : comparePart a b = -comparePart b a := by
  by_cases hab : a = b
  · subst hab; simp [comparePart]
  · have hba : b ≠ a := fun h => hab h.symm
    by_cases ha : a = []
    · subst ha
      have hb : b ≠ [] := hba
      simp only [comparePart, if_neg hab, if_neg hba, if_pos rfl, if_neg hb]
      by_cases hn : goParseInt64Ok b = true <;> simp [hn]
    · by_cases hb : b = []
      · subst hb
        simp only [comparePart, if_neg hab, if_neg hba, if_neg ha, if_pos rfl]
        by_cases hn : goParseInt64Ok a = true <;> simp [hn]
      · simp only [comparePart, if_neg hab, if_neg hba, if_neg ha, if_neg hb]
        by_cases hgt : strGt a b = true
        · have h2 : strGt b a = false := strLt_asymm b a hgt
          simp [hgt, h2]
        · have h2 : strGt b a = true := by
            rcases strLt_connex a b hab with h | h
            · exact h
            · exact absurd h (by simpa [strGt] using hgt)
          simp [hgt, h2]

theorem comparePart_range (a b : List Char) :
    comparePart a b = -1 ∨ comparePart a b = 0 ∨ comparePart a b = 1 := by
  unfold comparePart
  split
  · right; left; rfl
  · split
    · split
      · left; rfl
      · right; right; rfl
    · split
      · split
        · right; right; rfl
        · left; rfl
      · split
        · right; right; rfl
        · left; rfl

theorem prLoop_antisym : ∀ (a b : List (List Char)), prLoop a b = -prLoop b a := by
  intro a
  induction a with
  | nil =>
    intro b
    induction b with
    | nil => simp [prLoop]
    | cons y bs ih =>
      have hc := comparePart_antisym [] y
      by_cases h0 : comparePart [] y = 0
      · have h0b : comparePart y [] = 0 := by omega
        simp only [prLoop, if_pos h0, if_pos h0b]
        exact ih
      · have h0b : ¬ comparePart y [] = 0 := by omega
        simp only [prLoop, if_neg h0, if_neg h0b]
        omega
  | cons x as ih =>
    intro b
    cases b with
    | nil =>
      have hc := comparePart_antisym x []
      by_cases h0 : comparePart x [] = 0
      · have h0b : comparePart [] x = 0 := by omega
        simp only [prLoop, if_pos h0, if_pos h0b]
        exact ih []
      · have h0b : ¬ comparePart [] x = 0 := by omega
        simp only [prLoop, if_neg h0, if_neg h0b]
        omega
    | cons y bs =>
      have hc := comparePart_antisym x y
      by_cases h0 : comparePart x y = 0
      · have h0b : comparePart y x = 0 := by omega
        simp only [prLoop, if_pos h0, if_pos h0b]
        exact ih bs
      · have h0b : ¬ comparePart y x = 0 := by omega
        simp only [prLoop, if_neg h0, if_neg h0b]
        omega

theorem prLoop_range : ∀ (a b : List (List Char)),
    prLoop a b = -1 ∨ prLoop a b = 0 ∨ prLoop a b = 1 := by
  intro a
  induction a with
  | nil =>
    intro b
    induction b with
    | nil => right; left; simp [prLoop]
    | cons y bs ih =>
      by_cases h0 : comparePart [] y = 0
      · simpa [prLoop, h0] using ih
      · have := comparePart_range [] y
        simp only [prLoop, if_neg h0]
        tauto
  | cons x as ih =>
    intro b
    cases b with
    | nil =>
      by_cases h0 : comparePart x [] = 0
      · simpa [prLoop, h0] using ih []
      · have := comparePart_range x []
        simp only [prLoop, if_neg h0]
        tauto
    | cons y bs =>
      by_cases h0 : comparePart x y = 0
      · simpa [prLoop, h0] using ih bs
      · have := comparePart_range x y
        simp only [prLoop, if_neg h0]
        tauto

theorem comparePrereleases_antisym (a b : List Char) :
    comparePrereleases a b = -comparePrereleases b a := by
  by_cases hab : a = b
  · subst hab; simp [comparePrereleases]
  · have hba : b ≠ a := fun h => hab h.symm
    simp only [comparePrereleases, if_neg hab, if_neg hba]
    exact prLoop_antisym _ _

theorem comparePrereleases_range (a b : List Char) :
    comparePrereleases a b = -1 ∨ comparePrereleases a b = 0 ∨ comparePrereleases a b = 1 := by
  unfold comparePrereleases
  split
  · right; left; rfl
  · exact prLoop_range _ _

/-! ### Facts about the jagged segment loop -/

theorem segLoop_antisym : ∀ (a b : List Nat), segLoop a b = -segLoop b a := by
  intro a
  induction a with
  | nil =>
    intro b
    cases b with
    | nil => simp [segLoop]
    | cons y bs =>
      simp only [segLoop]
      by_cases hz : allZero (y :: bs) = true <;> simp [hz]
  | cons x as ih =>
    intro b
    cases b with
    | nil =>
      simp only [segLoop]
      by_cases hz : allZero (x :: as) = true <;> simp [hz]
    | cons y bs =>
      simp only [segLoop]
      by_cases hxy : x = y
      · subst hxy
        simp only [if_pos rfl]
        exact ih bs
      · have hyx : ¬ y = x := fun h => hxy h.symm
        simp only [if_neg hxy, if_neg hyx]
        rcases Nat.lt_or_ge x y with h | h
        · have h2 : ¬ y < x := by omega
          simp [h, h2]
        · have h1 : ¬ x < y := by omega
          have h2 : y < x := by omega
          simp [h1, h2]

theorem segLoop_range : ∀ (a b : List Nat),
    segLoop a b = -1 ∨ segLoop a b = 0 ∨ segLoop a b = 1 := by
  intro a
  induction a with
  | nil =>
    intro b
    cases b with
    | nil => right; left; rfl
    | cons y bs =>
      simp only [segLoop]
      split <;> tauto
  | cons x as ih =>
    intro b
    cases b with
    | nil =>
      simp only [segLoop]
      split <;> tauto
    | cons y bs =>
      simp only [segLoop]
      by_cases hxy : x = y
      · simpa [hxy] using ih bs
      · simp only [if_neg hxy]
        split <;> tauto

theorem segLoop_self_append (t : List Nat) (ht : allZero t = true) :
    ∀ (a : List Nat), segLoop a (a ++ t) = 0 := by
  intro a
  induction a with
  | nil =>
    cases t with
    | nil => rfl
    | cons y bs => simp [segLoop, ht]
  | cons x as ih => simp [segLoop, ih]

theorem segLoop_append_self (t : List Nat) (ht : allZero t = true) :
    ∀ (a : List Nat), segLoop (a ++ t) a = 0 := by
  intro a
  have h1 := segLoop_self_append t ht a
  have h2 := segLoop_antisym (a ++ t) a
  omega

/-! ### The comparison algorithm -/

theorem Compare_def (v w : Version) : v.Compare w =
    if v.String = w.String then 0
    else if v.segments = w.segments then
      if v.pre = [] then (if w.pre = [] then 0 else 1)
      else if w.pre = [] then -1
      else comparePrereleases v.pre w.pre
    else segLoop v.segments w.segments := by
  unfold Version.Compare Version.Segments Version.Prerelease
  by_cases hs : v.String = w.String
  · simp [hs]
  · by_cases hseg : v.segments = w.segments
    · by_cases hv : v.pre = [] <;> by_cases hw : w.pre = [] <;>
        simp [hs, hseg, hv, hw]
    · simp [hs, hseg]

theorem Compare_antisym (v w : Version) : v.Compare w = -(w.Compare v) := by
  rw [Compare_def, Compare_def]
  by_cases hs : v.String = w.String
  · have hs2 : w.String = v.String := hs.symm
    rw [if_pos hs, if_pos hs2]
    simp
  · have hs2 : ¬ w.String = v.String := fun h => hs h.symm
    simp only [if_neg hs, if_neg hs2]
    by_cases hseg : v.segments = w.segments
    · have hseg2 : w.segments = v.segments := hseg.symm
      simp only [if_pos hseg, if_pos hseg2]
      by_cases hv : v.pre = [] <;> by_cases hw : w.pre = []
      · simp [hv, hw]
      · simp [hv, hw]
      · simp [hv, hw]
      · simp only [if_neg hv, if_neg hw]
        exact comparePrereleases_antisym _ _
    · have hseg2 : ¬ w.segments = v.segments := fun h => hseg h.symm
      simp only [if_neg hseg, if_neg hseg2]
      exact segLoop_antisym _ _

theorem Compare_range (v w : Version) :
    v.Compare w = -1 ∨ v.Compare w = 0 ∨ v.Compare w = 1 := by
  rw [Compare_def]
  by_cases hs : v.String = w.String
  · simp [hs]
  · simp only [if_neg hs]
    by_cases hseg : v.segments = w.segments
    · simp only [if_pos hseg]
      by_cases hv : v.pre = [] <;> by_cases hw : w.pre = [] <;>
        simp [hv, hw, comparePrereleases_range]
    · simp only [if_neg hseg]
      exact segLoop_range _ _

theorem String_ne_of_pre_ne (v w : Version) (hseg : v.segments = w.segments)
    (hv : v.pre = []) (hw : w.pre ≠ []) : v.String ≠ w.String := by
  unfold Version.String
  rw [hseg, hv, if_pos rfl, if_neg hw, List.append_nil]
  intro h
  rw [List.append_assoc] at h
  have h2 := List.append_cancel_left h
  by_cases hm : v.metadata = []
  · rw [if_pos hm] at h2
    exact List.noConfusion h2
  · rw [if_neg hm] at h2
    have h3 : ('+' : Char) = '-' := List.head_eq_of_cons_eq h2
    exact absurd h3 (by decide)

/-! ### Extraction lemmas for the parser -/

theorem mkVersion_some {runs : List (List Char)} {pre meta : List Char} {v : Version}
    (h : mkVersion runs pre meta = some v) :
    v = ⟨meta, pre, padTo3 (runs.map digitsToNat), runs.length⟩ ∧
      ∀ r ∈ runs, digitsToNat r ≤ maxInt32 := by
  unfold mkVersion at h
  split at h
  · next hall =>
    refine ⟨(Option.some.inj h).symm, fun r hr => ?_⟩
    have := List.all_eq_true.mp hall r hr
    simpa using this
  · exact absurd h (by simp)

theorem shortenRuns_fst_ne_nil :
    ∀ (l a : List (List Char)) (c : Char) (b : List (List Char)),
      shortenRuns l = some (a, c, b) → a ≠ [] := by
  intro l
  induction l with
  | nil => intro a c b h; simp [shortenRuns] at h
  | cons r rest ih =>
    intro a c b h
    simp only [shortenRuns] at h
    cases hsr : shortenRuns rest with
    | some x =>
      obtain ⟨x1, x2, x3⟩ := x
      rw [hsr] at h
      simp only [Option.some.injEq, Prod.mk.injEq] at h
      obtain ⟨h1, _, _⟩ := h
      rw [← h1]
      simp
    | none =>
      rw [hsr] at h
      cases hrev : r.reverse with
      | nil => rw [hrev] at h; simp at h
      | cons c1 t1 =>
        cases t1 with
        | nil => rw [hrev] at h; simp at h
        | cons d1 t2 =>
          rw [hrev] at h
          simp only [Option.some.injEq, Prod.mk.injEq] at h
          obtain ⟨h1, _, _⟩ := h
          rw [← h1]
          simp

theorem NewVersion_some {s : List Char} {v : Version} (h : NewVersion s = some v) :
    ∃ runs pre meta t, runs ≠ [] ∧ matchTail t = some (pre, meta) ∧
      mkVersion runs pre meta = some v := by
  unfold NewVersion at h
  set s1 := if s.head? = some 'v' then s.tail else s with hs1
  by_cases hd0 : s1.takeWhile isDigitCh = []
  · rw [if_pos hd0] at h; exact absurd h (by simp)
  · rw [if_neg hd0] at h
    rcases hgr : dotDigitGroups (s1.dropWhile isDigitCh) with ⟨gs, restF⟩
    rw [hgr] at h
    simp only at h
    cases hmt : matchTail restF with
    | some pm =>
      obtain ⟨pre, meta⟩ := pm
      rw [hmt] at h
      exact ⟨_, pre, meta, restF, by simp, hmt, h⟩
    | none =>
      rw [hmt] at h
      cases hsr : shortenRuns (s1.takeWhile isDigitCh :: gs) with
      | none => rw [hsr] at h; exact absurd h (by simp)
      | some x =>
        obtain ⟨runs2, c, dropped⟩ := x
        rw [hsr] at h
        simp only at h
        cases hmt2 : matchTail (c :: (renderDropped dropped ++ restF)) with
        | some pm =>
          obtain ⟨pre, meta⟩ := pm
          rw [hmt2] at h
          exact ⟨runs2, pre, meta, _, shortenRuns_fst_ne_nil _ _ _ _ hsr, hmt2, h⟩
        | none => rw [hmt2] at h; exact absurd h (by simp)

/-! ### Concrete parses used by several claims -/

theorem parse_100 : parseS "1.0.0" = some ⟨[], [], [1, 0, 0], 3⟩ := by
  simp +decide [parseS, NewVersion, munchDotTokens, dotDigitGroups, matchTail, matchPre,
    matchMeta, mkVersion, padTo3, digitsToNat, maxInt32, shortenRuns, renderDropped]

theorem parse_1000 : parseS "1.0.0.0" = some ⟨[], [], [1, 0, 0, 0], 4⟩ := by
  simp +decide [parseS, NewVersion, munchDotTokens, dotDigitGroups, matchTail, matchPre,
    matchMeta, mkVersion, padTo3, digitsToNat, maxInt32, shortenRuns, renderDropped]

theorem parse_100beta : parseS "1.0.0-beta" = some ⟨[], ['b', 'e', 't', 'a'], [1, 0, 0], 3⟩ := by
  simp +decide [parseS, NewVersion, munchDotTokens, dotDigitGroups, matchTail, matchPre,
    matchMeta, mkVersion, padTo3, digitsToNat, maxInt32, shortenRuns, renderDropped]

theorem string_100 : (Version.mk [] [] [1, 0, 0] 3).String = ['1', '.', '0', '.', '0'] := by
  simp +decide [Version.String, natToChars, digitChar, joinDots]

theorem string_1000 :
    (Version.mk [] [] [1, 0, 0, 0] 4).String = ['1', '.', '0', '.', '0', '.', '0'] := by
  simp +decide [Version.String, natToChars, digitChar, joinDots]

theorem string_100beta : (Version.mk [] ['b', 'e', 't', 'a'] [1, 0, 0] 3).String
    = ['1', '.', '0', '.', '0', '-', 'b', 'e', 't', 'a'] := by
  simp +decide [Version.String, natToChars, digitChar, joinDots]

/-! ### C1 -/

/-- C1 (counterexample): `compare` is not transitive on parsed versions:
`compare(1.0.0, 1.0.0.0) = 0` and `compare(1.0.0.0, 1.0.0-beta) = 0`, yet
`compare(1.0.0, 1.0.0-beta) = 1`; in particular two zero comparisons do not
compose to a zero comparison, refuting the strict-total-order claim. -/
theorem C1_cex_not_transitive :
    cmpS "1.0.0" "1.0.0.0" = some 0 ∧ cmpS "1.0.0.0" "1.0.0-beta" = some 0 ∧
      cmpS "1.0.0" "1.0.0-beta" = some 1 := by
  refine ⟨?_, ?_, ?_⟩
  · simp only [cmpS, parse_100, parse_1000]
    rw [Compare_def]
    rw [if_neg (by rw [string_100, string_1000]; decide), if_neg (by decide)]
    decide
  · simp only [cmpS, parse_1000, parse_100beta]
    rw [Compare_def]
    rw [if_neg (by rw [string_1000, string_100beta]; decide), if_neg (by decide)]
    decide
  · simp only [cmpS, parse_100, parse_100beta]
    rw [Compare_def]
    rw [if_neg (by rw [string_100, string_100beta]; decide), if_pos (by decide)]
    decide

/-- C1 (amended): on parsed versions, `compare` is antisymmetric
(`compare(a,b) = -compare(b,a)`) and always yields one of `-1, 0, 1`, so for
each pair exactly one of `<, =, >` holds; transitivity, however, fails (see
the counterexample), so `compare` is not a strict total order. -/
theorem C1_antisym_and_trichotomy : ∀ (s t : String) (a b : Version),
    parseS s = some a → parseS t = some b →
    a.Compare b = -(b.Compare a) ∧
      (a.Compare b = -1 ∨ a.Compare b = 0 ∨ a.Compare b = 1) :=
  fun _ _ a b _ _ => ⟨Compare_antisym a b, Compare_range a b⟩

/-- Witness for C1 at the parsed inputs `1.0.0` and `1.0.0-beta`. -/
theorem C1_witness :
    (Version.mk [] [] [1, 0, 0] 3).Compare ⟨[], ['b', 'e', 't', 'a'], [1, 0, 0], 3⟩ =
        -((Version.mk [] ['b', 'e', 't', 'a'] [1, 0, 0] 3).Compare ⟨[], [], [1, 0, 0], 3⟩) ∧
      ((Version.mk [] [] [1, 0, 0] 3).Compare ⟨[], ['b', 'e', 't', 'a'], [1, 0, 0], 3⟩ = -1 ∨
        (Version.mk [] [] [1, 0, 0] 3).Compare ⟨[], ['b', 'e', 't', 'a'], [1, 0, 0], 3⟩ = 0 ∨
        (Version.mk [] [] [1, 0, 0] 3).Compare ⟨[], ['b', 'e', 't', 'a'], [1, 0, 0], 3⟩ = 1) :=
  C1_antisym_and_trichotomy "1.0.0" "1.0.0-beta" _ _ parse_100 parse_100beta

/-! ### C2 -/

/-- C2 (counterexample): `compare(parse("1.0.0.0"), parse("1.0.0-beta"))`
returns `0`: the comparator does NOT fall through to the pre-release rule
(which would give `1`) when the segment sequences are numerically equivalent
but of different lengths. -/
theorem C2_cex_returns_zero : cmpS "1.0.0.0" "1.0.0-beta" = some 0 := by
  simp only [cmpS, parse_1000, parse_100beta]
  rw [Compare_def]
  rw [if_neg (by rw [string_1000, string_100beta]; decide), if_neg (by decide)]
  decide

/-- C2 (amended): whenever the two segment sequences are numerically
equivalent but not identical (the common prefix is equal and every remaining
entry of the longer sequence is zero) and the rendered strings differ,
`Compare` breaks out of the segment loop and returns `0` directly, without
consulting the pre-release information. -/
theorem C2_equivalent_segments_zero : ∀ v w : Version,
    v.String ≠ w.String → v.segments ≠ w.segments →
    ((∃ t, allZero t = true ∧ w.segments = v.segments ++ t) ∨
      (∃ t, allZero t = true ∧ v.segments = w.segments ++ t)) →
    v.Compare w = 0 := by
  intro v w hs hseg hdisj
  rw [Compare_def, if_neg hs, if_neg hseg]
  rcases hdisj with ⟨t, ht, heq⟩ | ⟨t, ht, heq⟩
  · rw [heq]; exact segLoop_self_append t ht v.segments
  · rw [heq]; exact segLoop_append_self t ht w.segments

/-- Witness for C2 at the parsed values of `1.0.0.0` and `1.0.0-beta`. -/
theorem C2_witness :
    (Version.mk [] [] [1, 0, 0, 0] 4).Compare ⟨[], ['b', 'e', 't', 'a'], [1, 0, 0], 3⟩ = 0 :=
  C2_equivalent_segments_zero _ _
    (by rw [string_1000, string_100beta]; decide) (by decide)
    (Or.inr ⟨[0], by decide, by decide⟩)

/-! ### C3 -/

/-- C3 (counterexample): `parse("1.2.3beta")` succeeds with prerelease
`beta` although no `-` precedes the prerelease tokens, refuting the claim
that a non-empty prerelease requires a preceding dash. -/
theorem C3_cex_dashless : parseS "1.2.3beta" = some ⟨[], ['b', 'e', 't', 'a'], [1, 2, 3], 3⟩ := by
  simp +decide [parseS, NewVersion, munchDotTokens, dotDigitGroups, matchTail, matchPre,
    matchMeta, mkVersion, padTo3, digitsToNat, maxInt32, shortenRuns, renderDropped]

/-- C3 (amended): in the accepted grammar the prerelease dash is optional
(the regular expression uses `-?`): a prerelease token sequence may directly
follow the numeric segments, so `parse("1.2.3beta")` and
`parse("1.2.3-beta")` both succeed with prerelease `beta` (and identical
segments). -/
theorem C3_dash_optional :
    parseS "1.2.3beta" = some ⟨[], ['b', 'e', 't', 'a'], [1, 2, 3], 3⟩ ∧
      parseS "1.2.3-beta" = some ⟨[], ['b', 'e', 't', 'a'], [1, 2, 3], 3⟩ := by
  constructor
  · simp +decide [parseS, NewVersion, munchDotTokens, dotDigitGroups, matchTail, matchPre,
      matchMeta, mkVersion, padTo3, digitsToNat, maxInt32, shortenRuns, renderDropped]
  · simp +decide [parseS, NewVersion, munchDotTokens, dotDigitGroups, matchTail, matchPre,
      matchMeta, mkVersion, padTo3, digitsToNat, maxInt32, shortenRuns, renderDropped]

/-! ### C4 -/

/-- C4: in the positional prerelease comparison, an empty (missing) token
against a non-empty token loses when the non-empty token parses as an
integer and wins when it does not; in particular
`parse("1.0.0-alpha").lessThan(parse("1.0.0-alpha.1")) == true` and
`compare(parse("1.0.0-alpha"), parse("1.0.0-alpha.beta")) == 1`. -/
theorem C4_empty_vs_token :
    (∀ (c : Char) (t : List Char),
        comparePart [] (c :: t) = if goParseInt64Ok (c :: t) then -1 else 1) ∧
      (∀ (c : Char) (t : List Char),
        comparePart (c :: t) [] = if goParseInt64Ok (c :: t) then 1 else -1) ∧
      ltS "1.0.0-alpha" "1.0.0-alpha.1" = some true ∧
      cmpS "1.0.0-alpha" "1.0.0-alpha.beta" = some 1 := by
  refine ⟨fun c t => by simp [comparePart], fun c t => by simp [comparePart], ?_, ?_⟩
  · simp +decide [ltS, parseS, NewVersion, munchDotTokens, dotDigitGroups, matchTail, matchPre,
      matchMeta, mkVersion, padTo3, digitsToNat, maxInt32, shortenRuns, renderDropped,
      Version.LessThan, Version.Compare, Version.String, Version.Segments, Version.Prerelease,
      natToChars, digitChar, joinDots, comparePrereleases, splitOnDot, prLoop, comparePart,
      goParseInt64Ok, segLoop, allZero]
  · simp +decide [cmpS, parseS, NewVersion, munchDotTokens, dotDigitGroups, matchTail, matchPre,
      matchMeta, mkVersion, padTo3, digitsToNat, maxInt32, shortenRuns, renderDropped,
      Version.Compare, Version.String, Version.Segments, Version.Prerelease,
      natToChars, digitChar, joinDots, comparePrereleases, splitOnDot, prLoop, comparePart,
      goParseInt64Ok, strGt, strLt, segLoop, allZero]

/-! ### C5 -/

/-- C5: two non-empty, unequal corresponding prerelease tokens are compared
as plain strings in lexicographic order (1 when self's token sorts after,
-1 when it sorts first), never numerically; in particular
`compare(parse("1.0.0-9"), parse("1.0.0-10")) == 1` because `"10"` sorts
before `"9"` as a string. -/
theorem C5_lexicographic :
    (∀ a b : List Char, a ≠ [] → b ≠ [] → a ≠ b →
        comparePart a b = if strGt a b then 1 else -1) ∧
      cmpS "1.0.0-9" "1.0.0-10" = some 1 := by
  constructor
  · intro a b ha hb hab
    simp [comparePart, ha, hb, hab]
  · simp +decide [cmpS, parseS, NewVersion, munchDotTokens, dotDigitGroups, matchTail, matchPre,
      matchMeta, mkVersion, padTo3, digitsToNat, maxInt32, shortenRuns, renderDropped,
      Version.Compare, Version.String, Version.Segments, Version.Prerelease,
      natToChars, digitChar, joinDots, comparePrereleases, splitOnDot, prLoop, comparePart,
      goParseInt64Ok, strGt, strLt, segLoop, allZero]

/-- Witness for C5 on the tokens `"9"` and `"10"`. -/
theorem C5_witness : comparePart ['9'] ['1', '0'] = if strGt ['9'] ['1', '0'] then 1 else -1 :=
  C5_lexicographic.1 ['9'] ['1', '0'] (by decide) (by decide) (by decide)

/-! ### C6 -/

/-- C6: with equal segment sequences, a version with empty prerelease
compares greater (result 1) than one with a non-empty prerelease, and two
versions with empty prereleases compare equal (result 0); in particular
`parse("1.0.0").greaterThan(parse("1.0.0-beta")) == true`. -/
theorem C6_release_gt_prerelease :
    (∀ v w : Version, v.Segments = w.Segments → v.Prerelease = [] → w.Prerelease ≠ [] →
        v.Compare w = 1) ∧
      (∀ v w : Version, v.Segments = w.Segments → v.Prerelease = [] → w.Prerelease = [] →
        v.Compare w = 0) ∧
      gtS "1.0.0" "1.0.0-beta" = some true := by
  refine ⟨?_, ?_, ?_⟩
  · intro v w hseg hv hw
    simp only [Version.Segments] at hseg
    simp only [Version.Prerelease] at hv hw
    have hs := String_ne_of_pre_ne v w hseg hv hw
    rw [Compare_def, if_neg hs, if_pos hseg, if_pos hv, if_neg hw]
  · intro v w hseg hv hw
    simp only [Version.Segments] at hseg
    simp only [Version.Prerelease] at hv hw
    rw [Compare_def]
    by_cases hs : v.String = w.String
    · rw [if_pos hs]
    · rw [if_neg hs, if_pos hseg, if_pos hv, if_pos hw]
  · simp only [gtS, parse_100, parse_100beta]
    rw [Version.GreaterThan, Compare_def]
    rw [if_neg (by rw [string_100, string_100beta]; decide), if_pos (by decide)]
    decide

/-- Witness for C6 at the parsed values of `1.0.0` and `1.0.0-beta`. -/
theorem C6_witness :
    (Version.mk [] [] [1, 0, 0] 3).Compare ⟨[], ['b', 'e', 't', 'a'], [1, 0, 0], 3⟩ = 1 :=
  C6_release_gt_prerelease.1 _ _ rfl rfl (by decide)

/-! ### C7 -/

/-- C7: build metadata never affects `Compare`: two versions agreeing on
segments and prerelease but differing in metadata compare equal; in
particular `parse("1.0.0+a").equal(parse("1.0.0+b")) == true`. -/
theorem C7_metadata_ignored :
    (∀ v w : Version, v.Segments = w.Segments → v.Prerelease = w.Prerelease →
        v.Metadata ≠ w.Metadata → v.Compare w = 0) ∧
      eqS "1.0.0+a" "1.0.0+b" = some true := by
  constructor
  · intro v w hseg hpre _
    simp only [Version.Segments] at hseg
    simp only [Version.Prerelease] at hpre
    rw [Compare_def]
    by_cases hs : v.String = w.String
    · rw [if_pos hs]
    · rw [if_neg hs, if_pos hseg]
      by_cases hv : v.pre = []
      · have hw : w.pre = [] := by rw [← hpre]; exact hv
        rw [if_pos hv, if_pos hw]
      · have hw : ¬ w.pre = [] := by rw [← hpre]; exact hv
        rw [if_neg hv, if_neg hw, hpre]
        simp [comparePrereleases]
  · simp +decide [eqS, parseS, NewVersion, munchDotTokens, dotDigitGroups, matchTail, matchPre,
      matchMeta, mkVersion, padTo3, digitsToNat, maxInt32, shortenRuns, renderDropped,
      Version.Equal, Version.Compare, Version.String, Version.Segments, Version.Prerelease,
      natToChars, digitChar, joinDots, comparePrereleases, splitOnDot, prLoop, comparePart,
      goParseInt64Ok, strGt, strLt, segLoop, allZero]

/-- Witness for C7 at the parsed values of `1.0.0+a` and `1.0.0+b`. -/
theorem C7_witness :
    (Version.mk ['a'] [] [1, 0, 0] 3).Compare ⟨['b'], [], [1, 0, 0], 3⟩ = 0 :=
  C7_metadata_ignored.1 _ _ rfl rfl (by decide)

/-! ### C9 -/

/-- C9: every parsed version stores at least three segments; the stored
sequence is the original components (`si` of them) right-padded with zeros
to length 3 (`length = max si 3`, positions from `si` on are zero, and no
padding happens when `si ≥ 3`); in particular
`parse("1.2").segments() == [1,2,0]` and `parse("1").segments() == [1,0,0]`. -/
theorem C9_padding :
    (∀ (s : List Char) (v : Version), NewVersion s = some v →
        3 ≤ v.Segments.length ∧ v.Segments.length = max v.si 3 ∧
          v.Segments.take v.si ++ List.replicate (v.Segments.length - v.si) 0 = v.Segments) ∧
      (parseS "1.2").map Version.Segments = some [1, 2, 0] ∧
      (parseS "1").map Version.Segments = some [1, 0, 0] ∧
      (∀ (s : List Char) (v : Version), NewVersion s = some v → 3 ≤ v.si →
        v.Segments.length = v.si) := by
  have key : ∀ (s : List Char) (v : Version), NewVersion s = some v →
      3 ≤ v.Segments.length ∧ v.Segments.length = max v.si 3 ∧
        v.Segments.take v.si ++ List.replicate (v.Segments.length - v.si) 0 = v.Segments := by
    intro s v h
    obtain ⟨runs, pre, meta, t, hne, hmt, hmk⟩ := NewVersion_some h
    obtain ⟨hv, _⟩ := mkVersion_some hmk
    subst hv
    simp only [Version.Segments, padTo3]
    have hlen : (runs.map digitsToNat).length = runs.length := List.length_map _ _
    refine ⟨?_, ?_, ?_⟩
    · simp only [List.length_append, List.length_replicate]
      omega
    · simp only [List.length_append, List.length_replicate]
      omega
    · rw [List.take_left' (by omega : (runs.map digitsToNat).length = runs.length)]
      congr 1
      congr 1
      simp only [List.length_append, List.length_replicate]
      omega
  refine ⟨key, ?_, ?_, fun s v h h3 => ?_⟩
  · simp +decide [parseS, NewVersion, munchDotTokens, dotDigitGroups, matchTail, matchPre,
      matchMeta, mkVersion, padTo3, digitsToNat, maxInt32, shortenRuns, renderDropped,
      Version.Segments]
  · simp +decide [parseS, NewVersion, munchDotTokens, dotDigitGroups, matchTail, matchPre,
      matchMeta, mkVersion, padTo3, digitsToNat, maxInt32, shortenRuns, renderDropped,
      Version.Segments]
  · have h2 := (key s v h).2.1
    omega

/-- Witness for C9 at the input `1.2`. -/
theorem C9_witness :
    3 ≤ (Version.mk [] [] [1, 2, 0] 2).Segments.length ∧
      (Version.mk [] [] [1, 2, 0] 2).Segments.length = max (Version.mk [] [] [1, 2, 0] 2).si 3 ∧
      (Version.mk [] [] [1, 2, 0] 2).Segments.take (Version.mk [] [] [1, 2, 0] 2).si ++
          List.replicate ((Version.mk [] [] [1, 2, 0] 2).Segments.length -
            (Version.mk [] [] [1, 2, 0] 2).si) 0 = (Version.mk [] [] [1, 2, 0] 2).Segments :=
  C9_padding.1 ('1' :: '.' :: ['2']) _ (by
    simp +decide [NewVersion, munchDotTokens, dotDigitGroups, matchTail, matchPre,
      matchMeta, mkVersion, padTo3, digitsToNat, maxInt32, shortenRuns, renderDropped])

/-! ### C10 -/

/-- C10: the stored original-segment-count field `si` is unobservable: two
versions that agree on `metadata`, `pre` and `segments` but differ in `si`
yield identical results for `Compare` (both sides), `Equal`, `GreaterThan`,
`LessThan`, `String`, `Segments`, `Prerelease` and `Metadata`; in
particular `parse("1.0")` and `parse("1.0.0")` differ only in `si`. -/
theorem C10_si_unobservable :
    (∀ (m p : List Char) (segs : List Nat) (si1 si2 : Nat) (x : Version),
        (Version.mk m p segs si1).Compare x = (Version.mk m p segs si2).Compare x ∧
        x.Compare (Version.mk m p segs si1) = x.Compare (Version.mk m p segs si2) ∧
        (Version.mk m p segs si1).Equal x = (Version.mk m p segs si2).Equal x ∧
        x.Equal (Version.mk m p segs si1) = x.Equal (Version.mk m p segs si2) ∧
        (Version.mk m p segs si1).GreaterThan x = (Version.mk m p segs si2).GreaterThan x ∧
        x.GreaterThan (Version.mk m p segs si1) = x.GreaterThan (Version.mk m p segs si2) ∧
        (Version.mk m p segs si1).LessThan x = (Version.mk m p segs si2).LessThan x ∧
        x.LessThan (Version.mk m p segs si1) = x.LessThan (Version.mk m p segs si2) ∧
        (Version.mk m p segs si1).String = (Version.mk m p segs si2).String ∧
        (Version.mk m p segs si1).Segments = (Version.mk m p segs si2).Segments ∧
        (Version.mk m p segs si1).Prerelease = (Version.mk m p segs si2).Prerelease ∧
        (Version.mk m p segs si1).Metadata = (Version.mk m p segs si2).Metadata) ∧
      parseS "1.0" = some ⟨[], [], [1, 0, 0], 2⟩ ∧
      parseS "1.0.0" = some ⟨[], [], [1, 0, 0], 3⟩ := by
  refine ⟨fun m p segs si1 si2 x =>
    ⟨rfl, rfl, rfl, rfl, rfl, rfl, rfl, rfl, rfl, rfl, rfl, rfl⟩, ?_, parse_100⟩
  simp +decide [parseS, NewVersion, munchDotTokens, dotDigitGroups, matchTail, matchPre,
    matchMeta, mkVersion, padTo3, digitsToNat, maxInt32, shortenRuns, renderDropped]

/-! ### Decimal rendering facts -/

theorem digitChar_digit : ∀ m, m < 10 → isDigitCh (digitChar m) = true := by decide

theorem digitChar_val : ∀ m, m < 10 → (digitChar m).toNat - 48 = m := by decide

theorem natToChars_ne_nil (n : Nat) : natToChars n ≠ [] := by
  rw [natToChars]
  split
  · simp
  · simp

theorem natToChars_digits (n : Nat) : ∀ c ∈ natToChars n, isDigitCh c = true := by
  induction n using Nat.strong_induction_on with
  | _ n ih =>
    rw [natToChars]
    split
    · next h =>
      intro c hc
      simp only [List.mem_singleton] at hc
      subst hc
      exact digitChar_digit n h
    · next h =>
      intro c hc
      rw [List.mem_append] at hc
      rcases hc with hc | hc
      · exact ih (n / 10) (Nat.div_lt_self (by omega) (by omega)) c hc
      · simp only [List.mem_singleton] at hc
        subst hc
        exact digitChar_digit (n % 10) (Nat.mod_lt _ (by omega))

theorem digitsToNat_append_single (a : List Char) (c : Char) :
    digitsToNat (a ++ [c]) = 10 * digitsToNat a + (c.toNat - 48) := by
  simp [digitsToNat, List.foldl_append]
  ring

theorem digitsToNat_natToChars (n : Nat) : digitsToNat (natToChars n) = n := by
  induction n using Nat.strong_induction_on with
  | _ n ih =>
    rw [natToChars]
    split
    · next h =>
      simp [digitsToNat, digitChar_val n h]
    · next h =>
      rw [digitsToNat_append_single, ih (n / 10) (Nat.div_lt_self (by omega) (by omega)),
        digitChar_val (n % 10) (Nat.mod_lt _ (by omega))]
      omega

theorem joinDots_eq : ∀ (d : List Char) (gs : List (List Char)),
    joinDots (d :: gs) = d ++ renderDropped gs := by
  intro d gs
  induction gs generalizing d with
  | nil => simp [joinDots, renderDropped]
  | cons g gs ih => simp only [joinDots, renderDropped, List.foldr_cons, ih g]

/-! ### Character class facts -/

theorem isAlnumDash_of_digit {c : Char} (h : isDigitCh c = true) : isAlnumDash c = true := by
  simp [isAlnumDash, h]

theorem not_digit_dot : isDigitCh '.' = false := by decide

theorem not_alnumdash_dot : isAlnumDash '.' = false := by decide

theorem not_alnumdash_plus : isAlnumDash '+' = false := by decide

theorem digit_ne_v {c : Char} (h : isDigitCh c = true) : c ≠ 'v' := by
  intro hc
  subst hc
  exact absurd h (by decide)

/-! ### Token sequence shape lemmas -/

theorem tokenSeqB_dest {p : List Char} (h : tokenSeqB p = true) :
    p.takeWhile isAlnumDash ≠ [] ∧
      (p.dropWhile isAlnumDash = [] ∨
        ∃ q, p.dropWhile isAlnumDash = '.' :: q ∧ tokenSeqB q = true) := by
  unfold tokenSeqB at h
  split at h
  · exact absurd h (by simp)
  · next htok =>
    refine ⟨htok, ?_⟩
    split at h
    · next hd => exact Or.inl hd
    · next r hd => exact Or.inr ⟨r, hd, h⟩
    · next hd => exact absurd h (by simp)

theorem tokenSeqB_intro {tok more : List Char} (h1 : tok ≠ [])
    (h2 : ∀ c ∈ tok, isAlnumDash c = true)
    (h3 : more = [] ∨ ∃ y, more = '.' :: y ∧ tokenSeqB y = true) :
    tokenSeqB (tok ++ more) = true := by
  have hmt : more.takeWhile isAlnumDash = [] := by
    rcases h3 with h | ⟨y, hy, _⟩
    · simp [h]
    · rw [hy, List.takeWhile_cons_of_neg (by simp [not_alnumdash_dot])]
  have hmd : more.dropWhile isAlnumDash = more := by
    rcases h3 with h | ⟨y, hy, _⟩
    · simp [h]
    · rw [hy, List.dropWhile_cons_of_neg (by simp [not_alnumdash_dot])]
  have htw : (tok ++ more).takeWhile isAlnumDash = tok :=
    (List.takeWhile_append_of_pos h2).trans (by rw [hmt, List.append_nil])
  have hdw : (tok ++ more).dropWhile isAlnumDash = more :=
    (List.dropWhile_append_of_pos h2).trans hmd
  unfold tokenSeqB
  rw [htw, if_neg h1]
  split
  · rfl
  · next r hd =>
    rw [hdw] at hd
    rcases h3 with h | ⟨y, hy, hyt⟩
    · rw [h] at hd; exact absurd hd (by simp)
    · rw [hy] at hd
      obtain ⟨rfl⟩ : r = y := by
        have := List.tail_eq_of_cons_eq hd
        exact this.symm ▸ rfl
      exact hyt
  · next hnil hdot =>
    rw [hdw] at hnil hdot
    rcases h3 with h | ⟨y, hy, _⟩
    · exact absurd h hnil
    · exact absurd hy (by intro hc; exact hdot y hc)

theorem munchDot_shape_aux : ∀ (n : Nat) (s : List Char), s.length ≤ n →
    (munchDotTokens s).1 = [] ∨
      ∃ x, (munchDotTokens s).1 = '.' :: x ∧ tokenSeqB x = true := by
  intro n
  induction n with
  | zero =>
    intro s hlen
    have hnil : s = [] := List.eq_nil_of_length_eq_zero (by omega)
    subst hnil
    left
    simp [munchDotTokens]
  | succ n ih =>
    intro s hlen
    match s with
    | [] => left; simp [munchDotTokens]
    | c :: rest =>
      by_cases hc : c = '.'
      · subst hc
        by_cases htok : rest.takeWhile isAlnumDash = []
        · left
          simp [munchDotTokens, htok]
        · rcases hm : munchDotTokens (rest.dropWhile isAlnumDash) with ⟨more, fin⟩
          have hres : munchDotTokens ('.' :: rest)
              = ('.' :: (rest.takeWhile isAlnumDash ++ more), fin) := by
            simp [munchDotTokens, htok, hm]
          right
          refine ⟨rest.takeWhile isAlnumDash ++ more, by rw [hres], ?_⟩
          apply tokenSeqB_intro htok (fun c hc => List.mem_takeWhile_imp hc)
          have hlen2 : (rest.dropWhile isAlnumDash).length ≤ n := by
            have hsuf : List.dropWhile isAlnumDash rest <:+ rest :=
              List.dropWhile_suffix isAlnumDash
            have := hsuf.length_le
            simp only [List.length_cons] at hlen
            omega
          have hsh := ih (rest.dropWhile isAlnumDash) hlen2
          rw [hm] at hsh
          simpa using hsh
      · left
        simp [munchDotTokens, hc]

theorem munchDot_shape (s : List Char) :
    (munchDotTokens s).1 = [] ∨
      ∃ x, (munchDotTokens s).1 = '.' :: x ∧ tokenSeqB x = true :=
  munchDot_shape_aux s.length s le_rfl

theorem munch_all_aux : ∀ (n : Nat) (p r : List Char), p.length ≤ n → tokenSeqB p = true →
    (r = [] ∨ ∃ m, r = '+' :: m) →
    (p ++ r).takeWhile isAlnumDash ++ (munchDotTokens ((p ++ r).dropWhile isAlnumDash)).1 = p ∧
      (munchDotTokens ((p ++ r).dropWhile isAlnumDash)).2 = r := by
  intro n
  induction n with
  | zero =>
    intro p r hlen hp _
    have hnil : p = [] := List.eq_nil_of_length_eq_zero (by omega)
    subst hnil
    exact absurd hp (by simp [tokenSeqB])
  | succ n ih =>
    intro p r hlen hp hr
    obtain ⟨htne, hrest⟩ := tokenSeqB_dest hp
    have hp_decomp : p.takeWhile isAlnumDash ++ p.dropWhile isAlnumDash = p :=
      List.takeWhile_append_dropWhile isAlnumDash p
    have ht_all : ∀ c ∈ p.takeWhile isAlnumDash, isAlnumDash c = true :=
      fun c hc => List.mem_takeWhile_imp hc
    have hr_take : r.takeWhile isAlnumDash = [] := by
      rcases hr with h | ⟨m, hm⟩
      · simp [h]
      · rw [hm, List.takeWhile_cons_of_neg (by simp [not_alnumdash_plus])]
    have hr_drop : r.dropWhile isAlnumDash = r := by
      rcases hr with h | ⟨m, hm⟩
      · simp [h]
      · rw [hm, List.dropWhile_cons_of_neg (by simp [not_alnumdash_plus])]
    have hr_munch : munchDotTokens r = ([], r) := by
      rcases hr with h | ⟨m, hm⟩
      · simp [h, munchDotTokens]
      · rw [hm]; simp [munchDotTokens]
    rcases hrest with hd | ⟨q, hdq, hq⟩
    · have hpt : p = p.takeWhile isAlnumDash := by
        conv_lhs => rw [← hp_decomp]
        rw [hd, List.append_nil]
      constructor
      · conv_lhs => rw [hpt]
        rw [List.takeWhile_append_of_pos ht_all, List.dropWhile_append_of_pos ht_all,
          hr_take, hr_drop, hr_munch, List.append_nil, List.append_nil]
        exact hpt.symm
      · conv_lhs => rw [hpt]
        rw [List.dropWhile_append_of_pos ht_all, hr_drop, hr_munch]
    · have hpq : p = p.takeWhile isAlnumDash ++ '.' :: q := by
        conv_lhs => rw [← hp_decomp]
        rw [hdq]
      have hqlen : q.length ≤ n := by
        have : p.length = (p.takeWhile isAlnumDash).length + 1 + q.length := by
          conv_lhs => rw [hpq]
          simp [List.length_append]
          omega
        omega
      have hih := ih q r hqlen hq hr
      obtain ⟨htq, hqrest⟩ := tokenSeqB_dest hq
      have hq_decomp : q.takeWhile isAlnumDash ++ q.dropWhile isAlnumDash = q :=
        List.takeWhile_append_dropWhile isAlnumDash q
      have htq_all : ∀ c ∈ q.takeWhile isAlnumDash, isAlnumDash c = true :=
        fun c hc => List.mem_takeWhile_imp hc
      have htok2 : (q ++ r).takeWhile isAlnumDash ≠ [] := by
        conv_lhs => rw [← hq_decomp]
        rw [List.append_assoc, List.takeWhile_append_of_pos htq_all]
        simp [htq]
      have hassoc : p ++ r = p.takeWhile isAlnumDash ++ '.' :: (q ++ r) := by
        conv_lhs => rw [hpq]
        simp
      rcases hm : munchDotTokens ((q ++ r).dropWhile isAlnumDash) with ⟨more, fin⟩
      have hmunch : munchDotTokens ('.' :: (q ++ r))
          = ('.' :: ((q ++ r).takeWhile isAlnumDash ++ more), fin) := by
        simp [munchDotTokens, htok2, hm]
      rw [hm] at hih
      constructor
      · rw [hassoc, List.takeWhile_append_of_pos ht_all,
          List.takeWhile_cons_of_neg (by simp [not_alnumdash_dot]),
          List.dropWhile_append_of_pos ht_all,
          List.dropWhile_cons_of_neg (by simp [not_alnumdash_dot]),
          hmunch, List.append_nil]
        simp only
        rw [hih.1]
        exact hpq.symm
      · rw [hassoc, List.dropWhile_append_of_pos ht_all,
          List.dropWhile_cons_of_neg (by simp [not_alnumdash_dot]), hmunch]
        exact hih.2

theorem munch_all (p r : List Char) (hp : tokenSeqB p = true)
    (hr : r = [] ∨ ∃ m, r = '+' :: m) :
    (p ++ r).takeWhile isAlnumDash ++ (munchDotTokens ((p ++ r).dropWhile isAlnumDash)).1 = p ∧
      (munchDotTokens ((p ++ r).dropWhile isAlnumDash)).2 = r :=
  munch_all_aux p.length p r le_rfl hp hr

/-! ### Computation of the tail matchers on rendered strings -/

theorem tokenSeqB_head_alnum {p : List Char} (hp : tokenSeqB p = true) :
    ∃ c p2, p = c :: p2 ∧ isAlnumDash c = true := by
  obtain ⟨htne, _⟩ := tokenSeqB_dest hp
  cases hp2 : p.takeWhile isAlnumDash with
  | nil => exact absurd hp2 htne
  | cons c t2 =>
    cases p with
    | nil => simp at hp2
    | cons c0 p2 =>
      refine ⟨c0, p2, rfl, ?_⟩
      by_cases h : isAlnumDash c0 = true
      · exact h
      · rw [List.takeWhile_cons_of_neg (by simp [h])] at hp2
        exact absurd hp2.symm (by simp)

theorem matchPre_dash_token {p r : List Char} (hp : tokenSeqB p = true)
    (hr : r = [] ∨ ∃ m, r = '+' :: m) : matchPre ('-' :: (p ++ r)) = (p, r) := by
  obtain ⟨c, p2, hpc, hca⟩ := tokenSeqB_head_alnum hp
  have htok : (p ++ r).takeWhile isAlnumDash ≠ [] := by
    rw [hpc, List.cons_append, List.takeWhile_cons_of_pos hca]
    simp
  have hma := munch_all p r hp hr
  rcases hmm : munchDotTokens ((p ++ r).dropWhile isAlnumDash) with ⟨more, fin⟩
  rw [hmm] at hma
  simp only [matchPre, if_neg htok, hmm]
  exact Prod.ext hma.1 hma.2

theorem matchPre_no_dash_token {p r : List Char} (hp : tokenSeqB p = true)
    (hr : r = [] ∨ ∃ m, r = '+' :: m) (hnd : p.head? ≠ some '-') :
    matchPre (p ++ r) = (p, r) := by
  obtain ⟨c, p2, hpc, hca⟩ := tokenSeqB_head_alnum hp
  have hma := munch_all p r hp hr
  rcases hmm : munchDotTokens ((p ++ r).dropWhile isAlnumDash) with ⟨more, fin⟩
  rw [hmm] at hma
  have hcne : c ≠ '-' := by
    intro hc
    rw [hpc, hc] at hnd
    simp at hnd
  rw [hpc, List.cons_append]
  have hres : matchPre (c :: (p2 ++ r)) = if isAlnumDash c = true then
      ((c :: (p2 ++ r)).takeWhile isAlnumDash ++
          (munchDotTokens ((c :: (p2 ++ r)).dropWhile isAlnumDash)).1,
        (munchDotTokens ((c :: (p2 ++ r)).dropWhile isAlnumDash)).2)
    else ([], c :: (p2 ++ r)) := by
    rw [matchPre.eq_def]
    split
    · next heq =>
      rw [List.cons.injEq] at heq
      exact absurd heq.1 hcne
    · next c2 l2 heq =>
      rw [List.cons.injEq] at heq
      obtain ⟨hc2, hl2⟩ := heq
      subst hc2; subst hl2
      split
      · rcases hmm2 : munchDotTokens ((c :: (p2 ++ r)).dropWhile isAlnumDash) with ⟨m2, f2⟩
        simp [hmm2]
      · next hneg => simp [hneg]
    · next heq => exact absurd heq (by simp)
  rw [hres, if_pos hca, ← List.cons_append, ← hpc, hmm]
  exact Prod.ext hma.1 hma.2

theorem matchMeta_nil : matchMeta [] = some [] := rfl

theorem matchMeta_token {m : List Char} (hm : tokenSeqB m = true) :
    matchMeta ('+' :: m) = some m := by
  obtain ⟨htm, _⟩ := tokenSeqB_dest hm
  have hma := munch_all m [] hm (Or.inl rfl)
  rw [List.append_nil] at hma
  rcases hmm : munchDotTokens (m.dropWhile isAlnumDash) with ⟨more, fin⟩
  rw [hmm] at hma
  simp only [matchMeta, if_neg htm, hmm]
  rw [if_pos hma.2, hma.1]

theorem matchTail_render (p m : List Char) (hp : p = [] ∨ tokenSeqB p = true)
    (hm : m = [] ∨ tokenSeqB m = true) :
    matchTail ((if p = [] then [] else '-' :: p) ++ (if m = [] then [] else '+' :: m))
      = some (p, m) := by
  rcases hp with hp | hp
  · subst hp
    rcases hm with hm | hm
    · subst hm
      rfl
    · have hmne : m ≠ [] := (tokenSeqB_dest hm).1 ∘ fun h => by simp [h]
      rw [if_pos rfl, if_neg hmne, List.nil_append]
      have h1 : matchPre ('+' :: m) = ([], '+' :: m) := by
        rw [matchPre.eq_def]
        split
        · next heq => exact absurd (List.cons.injEq .. ▸ heq).1 (by decide)
        · next c2 l2 heq =>
          rw [List.cons.injEq] at heq
          obtain ⟨hc2, _⟩ := heq
          subst hc2
          rw [if_neg (by simp [not_alnumdash_plus])]
        · next heq => exact absurd heq (by simp)
      simp only [matchTail, h1, matchMeta_token hm]
  · have hpne : p ≠ [] := fun h => by
      have := (tokenSeqB_dest hp).1
      rw [h] at this
      exact this (by simp)
    rw [if_neg hpne]
    rcases hm with hm | hm
    · subst hm
      rw [if_pos rfl, List.append_nil]
      have h1 : matchPre ('-' :: p) = (p, []) := by
        have := matchPre_dash_token hp (Or.inl rfl)
        rwa [List.append_nil] at this
      simp only [matchTail, h1, matchMeta_nil]
    · have hmne : m ≠ [] := fun h => by
        have := (tokenSeqB_dest hm).1
        rw [h] at this
        exact this (by simp)
      rw [if_neg hmne, List.cons_append]
      have h1 : matchPre ('-' :: (p ++ '+' :: m)) = (p, '+' :: m) :=
        matchPre_dash_token hp (Or.inr ⟨m, rfl⟩)
      simp only [matchTail, h1, matchMeta_token hm]

/-! ### Shapes of the captures produced by the tail matchers -/

theorem tokenSeqB_dash_more {more : List Char}
    (h : more = [] ∨ ∃ y, more = '.' :: y ∧ tokenSeqB y = true) :
    tokenSeqB ('-' :: more) = true := by
  have hb : tokenSeqB (['-'] ++ more) = true := tokenSeqB_intro (by simp) (by decide) h
  simpa using hb

theorem matchPre_cons_dash (rest : List Char) :
    matchPre ('-' :: rest) =
      if rest.takeWhile isAlnumDash = [] then
        ('-' :: (munchDotTokens rest).1, (munchDotTokens rest).2)
      else ((rest.takeWhile isAlnumDash) ++ (munchDotTokens (rest.dropWhile isAlnumDash)).1,
        (munchDotTokens (rest.dropWhile isAlnumDash)).2) := by
  by_cases h : rest.takeWhile isAlnumDash = []
  · rcases hmm : munchDotTokens rest with ⟨more, fin⟩
    simp [matchPre, h, hmm]
  · rcases hmm : munchDotTokens (rest.dropWhile isAlnumDash) with ⟨more, fin⟩
    simp [matchPre, h, hmm]

theorem matchPre_cons_ne_dash {c : Char} (l : List Char) (hc : c ≠ '-') :
    matchPre (c :: l) = if isAlnumDash c = true then
      ((c :: l).takeWhile isAlnumDash ++ (munchDotTokens ((c :: l).dropWhile isAlnumDash)).1,
        (munchDotTokens ((c :: l).dropWhile isAlnumDash)).2)
    else ([], c :: l) := by
  by_cases h2 : isAlnumDash c = true
  · rcases hmm : munchDotTokens (List.dropWhile isAlnumDash l) with ⟨more, fin⟩
    simp [matchPre, hc, h2, hmm]
  · simp [matchPre, hc, h2]

theorem matchPre_shape (s : List Char) :
    (matchPre s).1 = [] ∨ tokenSeqB (matchPre s).1 = true := by
  cases s with
  | nil => exact Or.inl rfl
  | cons c l =>
    by_cases hc : c = '-'
    · subst hc
      rw [matchPre_cons_dash]
      by_cases htok : l.takeWhile isAlnumDash = []
      · rw [if_pos htok]
        right
        simp only
        exact tokenSeqB_dash_more (munchDot_shape l)
      · rw [if_neg htok]
        right
        simp only
        exact tokenSeqB_intro htok (fun c2 hc2 => List.mem_takeWhile_imp hc2)
          (munchDot_shape (l.dropWhile isAlnumDash))
    · rw [matchPre_cons_ne_dash l hc]
      by_cases hca : isAlnumDash c = true
      · rw [if_pos hca]
        right
        simp only
        have htok : (c :: l).takeWhile isAlnumDash ≠ [] := by
          rw [List.takeWhile_cons_of_pos hca]
          simp
        exact tokenSeqB_intro htok (fun c2 hc2 => List.mem_takeWhile_imp hc2)
          (munchDot_shape ((c :: l).dropWhile isAlnumDash))
      · rw [if_neg hca]
        exact Or.inl rfl

theorem matchMeta_shape {s m : List Char} (h : matchMeta s = some m) :
    m = [] ∨ tokenSeqB m = true := by
  rw [matchMeta.eq_def] at h
  split at h
  · exact Or.inl (Option.some.inj h).symm
  · next rest =>
    dsimp only at h
    by_cases htok : rest.takeWhile isAlnumDash = []
    · rw [if_pos htok] at h
      exact absurd h (by simp)
    · rw [if_neg htok] at h
      rcases hmm : munchDotTokens (rest.dropWhile isAlnumDash) with ⟨more, fin⟩
      rw [hmm] at h
      simp only at h
      split at h
      · right
        rw [← Option.some.inj h]
        refine tokenSeqB_intro htok (fun c hc => List.mem_takeWhile_imp hc) ?_
        rcases munchDot_shape (rest.dropWhile isAlnumDash) with hsh | ⟨y, hy, hyt⟩
        · rw [hmm] at hsh; simp only at hsh; exact Or.inl hsh
        · rw [hmm] at hy; simp only at hy; exact Or.inr ⟨y, hy, hyt⟩
      · exact absurd h (by simp)
  · exact absurd h (by simp)

theorem matchTail_shape {t pre meta : List Char} (hmt : matchTail t = some (pre, meta)) :
    (pre = [] ∨ tokenSeqB pre = true) ∧ (meta = [] ∨ tokenSeqB meta = true) := by
  rcases hmp : matchPre t with ⟨pre2, rest2⟩
  simp only [matchTail, hmp] at hmt
  cases hmm : matchMeta rest2 with
  | none => rw [hmm] at hmt; exact absurd hmt (by simp)
  | some m2 =>
    rw [hmm] at hmt
    simp only [Option.some.injEq, Prod.mk.injEq] at hmt
    obtain ⟨h1, h2⟩ := hmt
    constructor
    · rw [← h1]
      have hshape := matchPre_shape t
      rw [hmp] at hshape
      simpa using hshape
    · rw [← h2]
      exact matchMeta_shape hmm

/-! ### Invariants of every parsed version -/

theorem NewVersion_inv {s : List Char} {v : Version} (h : NewVersion s = some v) :
    (∀ x ∈ v.segments, x ≤ maxInt32) ∧ 3 ≤ v.segments.length ∧
      (v.pre = [] ∨ tokenSeqB v.pre = true) ∧
      (v.metadata = [] ∨ tokenSeqB v.metadata = true) := by
  obtain ⟨runs, pre, meta, t, hne, hmt, hmk⟩ := NewVersion_some h
  obtain ⟨hv, hbound⟩ := mkVersion_some hmk
  obtain ⟨hps, hms⟩ := matchTail_shape hmt
  subst hv
  refine ⟨?_, ?_, hps, hms⟩
  · intro x hx
    simp only [padTo3, List.mem_append] at hx
    rcases hx with hx | hx
    · obtain ⟨r, hr, hrx⟩ := List.mem_map.mp hx
      rw [← hrx]
      exact hbound r hr
    · rw [List.eq_of_mem_replicate hx]
      simp [maxInt32]
  · simp only [padTo3, List.length_append, List.length_replicate]
    omega

/-! ### Re-parsing the rendered digit spine -/

theorem dotDigitGroups_nil : dotDigitGroups [] = ([], []) := by
  simp [dotDigitGroups]

theorem dotDigitGroups_cons_ne_dot {c : Char} (t : List Char) (hc : c ≠ '.') :
    dotDigitGroups (c :: t) = ([], c :: t) := by
  simp [dotDigitGroups, hc]

theorem dotDigitGroups_cons_dot (rest : List Char) :
    dotDigitGroups ('.' :: rest) =
      if rest.takeWhile isDigitCh = [] then ([], '.' :: rest)
      else ((rest.takeWhile isDigitCh) :: (dotDigitGroups (rest.dropWhile isDigitCh)).1,
        (dotDigitGroups (rest.dropWhile isDigitCh)).2) := by
  by_cases h : rest.takeWhile isDigitCh = []
  · simp [dotDigitGroups, h]
  · rcases hgg : dotDigitGroups (rest.dropWhile isDigitCh) with ⟨gs, fin⟩
    simp [dotDigitGroups, h, hgg]

theorem spine_render : ∀ (gs : List (List Char)),
    (∀ g ∈ gs, g ≠ [] ∧ ∀ c ∈ g, isDigitCh c = true) →
    ∀ (t : List Char), (t = [] ∨ ∃ c t2, t = c :: t2 ∧ isDigitCh c = false ∧ c ≠ '.') →
    dotDigitGroups (renderDropped gs ++ t) = (gs, t) := by
  intro gs
  induction gs with
  | nil =>
    intro _ t ht
    simp only [renderDropped, List.foldr_nil, List.nil_append]
    rcases ht with h | ⟨c, t2, hct, hcd, hcne⟩
    · subst h; exact dotDigitGroups_nil
    · subst hct; exact dotDigitGroups_cons_ne_dot t2 hcne
  | cons g gs ih =>
    intro hall t ht
    obtain ⟨hgne, hgd⟩ := hall g (by simp)
    have hall2 : ∀ g2 ∈ gs, g2 ≠ [] ∧ ∀ c ∈ g2, isDigitCh c = true :=
      fun g2 hg2 => hall g2 (by simp [hg2])
    have hshape : renderDropped (g :: gs) ++ t = '.' :: (g ++ (renderDropped gs ++ t)) := by
      simp [renderDropped]
    have hXtake : (renderDropped gs ++ t).takeWhile isDigitCh = [] := by
      cases gs with
      | nil =>
        simp only [renderDropped, List.foldr_nil, List.nil_append]
        rcases ht with h | ⟨c, t2, hct, hcd, _⟩
        · simp [h]
        · subst hct; rw [List.takeWhile_cons_of_neg (by simp [hcd])]
      | cons g2 gs2 =>
        have h2 : renderDropped (g2 :: gs2) ++ t = '.' :: (g2 ++ (renderDropped gs2 ++ t)) := by
          simp [renderDropped]
        rw [h2, List.takeWhile_cons_of_neg (by simp [not_digit_dot])]
    have hXdrop : (renderDropped gs ++ t).dropWhile isDigitCh = renderDropped gs ++ t := by
      cases gs with
      | nil =>
        simp only [renderDropped, List.foldr_nil, List.nil_append]
        rcases ht with h | ⟨c, t2, hct, hcd, _⟩
        · simp [h]
        · subst hct; rw [List.dropWhile_cons_of_neg (by simp [hcd])]
      | cons g2 gs2 =>
        have h2 : renderDropped (g2 :: gs2) ++ t = '.' :: (g2 ++ (renderDropped gs2 ++ t)) := by
          simp [renderDropped]
        rw [h2, List.dropWhile_cons_of_neg (by simp [not_digit_dot]), ← h2]
    have htw : (g ++ (renderDropped gs ++ t)).takeWhile isDigitCh = g := by
      rw [List.takeWhile_append_of_pos hgd, hXtake, List.append_nil]
    have hdw : (g ++ (renderDropped gs ++ t)).dropWhile isDigitCh = renderDropped gs ++ t := by
      rw [List.dropWhile_append_of_pos hgd, hXdrop]
    rw [hshape, dotDigitGroups_cons_dot, if_neg (by rw [htw]; exact hgne), htw, hdw,
      ih hall2 t ht]

theorem renderTail_take (gs : List (List Char)) (t : List Char)
    (ht : t = [] ∨ ∃ c t2, t = c :: t2 ∧ isDigitCh c = false ∧ c ≠ '.') :
    (renderDropped gs ++ t).takeWhile isDigitCh = [] := by
  cases gs with
  | nil =>
    simp only [renderDropped, List.foldr_nil, List.nil_append]
    rcases ht with h | ⟨c, t2, hct, hcd, _⟩
    · simp [h]
    · subst hct; rw [List.takeWhile_cons_of_neg (by simp [hcd])]
  | cons g2 gs2 =>
    have h2 : renderDropped (g2 :: gs2) ++ t = '.' :: (g2 ++ (renderDropped gs2 ++ t)) := by
      simp [renderDropped]
    rw [h2, List.takeWhile_cons_of_neg (by simp [not_digit_dot])]

theorem renderTail_drop (gs : List (List Char)) (t : List Char)
    (ht : t = [] ∨ ∃ c t2, t = c :: t2 ∧ isDigitCh c = false ∧ c ≠ '.') :
    (renderDropped gs ++ t).dropWhile isDigitCh = renderDropped gs ++ t := by
  cases gs with
  | nil =>
    simp only [renderDropped, List.foldr_nil, List.nil_append]
    rcases ht with h | ⟨c, t2, hct, hcd, _⟩
    · simp [h]
    · subst hct; rw [List.dropWhile_cons_of_neg (by simp [hcd])]
  | cons g2 gs2 =>
    have h2 : renderDropped (g2 :: gs2) ++ t = '.' :: (g2 ++ (renderDropped gs2 ++ t)) := by
      simp [renderDropped]
    rw [h2, List.dropWhile_cons_of_neg (by simp [not_digit_dot]), ← h2]

theorem NewVersion_build (d0 : List Char) (gs : List (List Char)) (t pre meta : List Char)
    (hd0ne : d0 ≠ []) (hd0d : ∀ c ∈ d0, isDigitCh c = true)
    (hgs : ∀ g ∈ gs, g ≠ [] ∧ ∀ c ∈ g, isDigitCh c = true)
    (ht : t = [] ∨ ∃ c t2, t = c :: t2 ∧ isDigitCh c = false ∧ c ≠ '.')
    (hmt : matchTail t = some (pre, meta)) :
    NewVersion (d0 ++ (renderDropped gs ++ t)) = mkVersion (d0 :: gs) pre meta := by
  obtain ⟨c0, d0t, hd0c⟩ : ∃ c0 d0t, d0 = c0 :: d0t := by
    cases d0 with
    | nil => exact absurd rfl hd0ne
    | cons a b => exact ⟨a, b, rfl⟩
  have hc0d : isDigitCh c0 = true := hd0d c0 (by rw [hd0c]; simp)
  have hhead : ¬ (d0 ++ (renderDropped gs ++ t)).head? = some 'v' := by
    rw [hd0c, List.cons_append]
    simp only [List.head?_cons]
    intro h
    exact digit_ne_v hc0d (Option.some.inj h)
  have htw : (d0 ++ (renderDropped gs ++ t)).takeWhile isDigitCh = d0 := by
    rw [List.takeWhile_append_of_pos hd0d, renderTail_take gs t ht, List.append_nil]
  have hdw : (d0 ++ (renderDropped gs ++ t)).dropWhile isDigitCh = renderDropped gs ++ t := by
    rw [List.dropWhile_append_of_pos hd0d, renderTail_drop gs t ht]
  simp only [NewVersion, if_neg hhead, htw, hdw, if_neg hd0ne,
    spine_render gs hgs t ht, hmt]

theorem map_digitsToNat_natToChars (l : List Nat) :
    (l.map natToChars).map digitsToNat = l := by
  induction l with
  | nil => rfl
  | cons a l ih => simp [digitsToNat_natToChars, ih]

/-! ### C8 -/

/-- C8: round-trip: whenever `NewVersion` succeeds on an input and yields
`v`, re-parsing the rendered string `v.String` succeeds and yields a version
`w` with `v.Compare w = 0`. -/
theorem C8_roundtrip : ∀ (s : List Char) (v : Version), NewVersion s = some v →
    ∃ w, NewVersion v.String = some w ∧ v.Compare w = 0 := by
  intro s v h
  obtain ⟨hbound, hlen, hps, hms⟩ := NewVersion_inv h
  obtain ⟨s0, segs, hsegc⟩ : ∃ s0 segs, v.segments = s0 :: segs := by
    cases hs : v.segments with
    | nil => rw [hs] at hlen; simp at hlen
    | cons a b => exact ⟨a, b, rfl⟩
  have hrender : v.String = natToChars s0 ++ (renderDropped (segs.map natToChars) ++
      ((if v.pre = [] then [] else '-' :: v.pre) ++
        (if v.metadata = [] then [] else '+' :: v.metadata))) := by
    unfold Version.String
    rw [hsegc, List.map_cons, joinDots_eq]
    simp [List.append_assoc]
  have ht : ((if v.pre = [] then [] else '-' :: v.pre) ++
        (if v.metadata = [] then [] else '+' :: v.metadata)) = [] ∨
      ∃ c t2, ((if v.pre = [] then [] else '-' :: v.pre) ++
        (if v.metadata = [] then [] else '+' :: v.metadata)) = c :: t2 ∧
        isDigitCh c = false ∧ c ≠ '.' := by
    by_cases hp : v.pre = []
    · by_cases hm : v.metadata = []
      · left; rw [if_pos hp, if_pos hm]; rfl
      · right
        rw [if_pos hp, if_neg hm, List.nil_append]
        exact ⟨'+', v.metadata, rfl, by decide, by decide⟩
    · right
      rw [if_neg hp, List.cons_append]
      exact ⟨'-', _, rfl, by decide, by decide⟩
  have hmt : matchTail ((if v.pre = [] then [] else '-' :: v.pre) ++
        (if v.metadata = [] then [] else '+' :: v.metadata)) = some (v.pre, v.metadata) :=
    matchTail_render v.pre v.metadata hps hms
  have hgs : ∀ g ∈ segs.map natToChars, g ≠ [] ∧ ∀ c ∈ g, isDigitCh c = true := by
    intro g hg
    obtain ⟨n, _, hng⟩ := List.mem_map.mp hg
    rw [← hng]
    exact ⟨natToChars_ne_nil n, natToChars_digits n⟩
  have hbuild := NewVersion_build (natToChars s0) (segs.map natToChars) _ v.pre v.metadata
    (natToChars_ne_nil s0) (natToChars_digits s0) hgs ht hmt
  rw [← hrender] at hbuild
  have hruns : natToChars s0 :: segs.map natToChars = v.segments.map natToChars := by
    rw [hsegc, List.map_cons]
  rw [hruns] at hbuild
  have hall : (v.segments.map natToChars).all (fun r => digitsToNat r ≤ maxInt32) = true := by
    rw [List.all_eq_true]
    intro r hr
    obtain ⟨n, hn, hnr⟩ := List.mem_map.mp hr
    rw [← hnr]
    simp only [digitsToNat_natToChars]
    exact decide_eq_true (hbound n hn)
  have hmk : mkVersion (v.segments.map natToChars) v.pre v.metadata
      = some ⟨v.metadata, v.pre, v.segments, v.segments.length⟩ := by
    unfold mkVersion
    rw [if_pos hall]
    congr 1
    have hpad : padTo3 ((v.segments.map natToChars).map digitsToNat) = v.segments := by
      rw [map_digitsToNat_natToChars, padTo3,
        Nat.sub_eq_zero_of_le (by simpa using hlen), List.replicate_zero, List.append_nil]
    rw [hpad]
    congr 1
    simp
  refine ⟨⟨v.metadata, v.pre, v.segments, v.segments.length⟩, by rw [hbuild, hmk], ?_⟩
  have hstring : v.String = Version.String ⟨v.metadata, v.pre, v.segments, v.segments.length⟩ :=
    rfl
  rw [Compare_def, if_pos hstring]

/-- Witness for C8 at the parsed value of `1.2-a+b`. -/
theorem C8_witness : ∃ w,
    NewVersion (Version.String ⟨['b'], ['a'], [1, 2, 0], 2⟩) = some w ∧
      (Version.mk ['b'] ['a'] [1, 2, 0] 2).Compare w = 0 :=
  C8_roundtrip ('1' :: '.' :: '2' :: '-' :: 'a' :: '+' :: ['b']) _ (by
    simp +decide [NewVersion, munchDotTokens, dotDigitGroups, matchTail, matchPre,
      matchMeta, mkVersion, padTo3, digitsToNat, maxInt32, shortenRuns, renderDropped])
